import Mathlib

/-!
Verification of the raid-helper status parsing, progress-bar rendering and
poll-until-reboot loop (src/main.go of Harnish/raidhelper).

Embedding conventions:
* A status-file content that was read successfully is modelled as the list of
  its lines, each line a `List Char` (the `bufio.Scanner` line iteration).
  The IO-error path of each reader (file unreadable) lies outside the
  content-parameterised embedding; the claims under study all quantify over
  readable contents.
* Go `float64` arithmetic is abstracted as exact rational arithmetic (`ℚ`):
  the quantities involved are small ratios and the claims are about the
  mathematical values of the expressions the code computes.
* Go's `regexp` on the two concrete patterns of the program is embedded
  directly: `\[([=>\.]+)\]` (leftmost `[`-anchored run of one or more of
  `=`, `>`, `.` immediately followed by `]`) and the raw-string pattern
  `finish=([^\\s]+)` whose character class excludes the backslash character
  and the letter `s` (a Go raw string does not process `\\`, so the class is
  NOT "non-whitespace").
-/

namespace RaidHelper

/-- `strings.Contains`: does `pat` occur as a contiguous substring of the line? -/
def containsSub (pat : List Char) : List Char → Bool
  | [] => pat.isEmpty
  | c :: cs => pat.isPrefixOf (c :: cs) || containsSub pat cs

/-- `getMdChecking` (src/main.go:28): count the lines containing the literal
substring `"check"`.  The Go loop increments a counter per matching line. -/
def getMdChecking (lines : List (List Char)) : Nat :=
  lines.countP (fun l => containsSub "check".toList l)

/-- Character class `[=>\.]` of the progress-bracket regex. -/
def isBarChar (c : Char) : Bool :=
  c == '=' || c == '>' || c == '.'

/-- Leftmost match of `\[([=>\.]+)\]` in a line, returning the captured group:
scan for a `[` followed by a non-empty maximal run of bar characters that is
immediately followed by `]`; otherwise keep scanning from the next position. -/
def extractBracketAux : List Char → Option (List Char)
  | [] => none
  | c :: cs =>
    if c = '[' ∧ cs.takeWhile isBarChar ≠ [] ∧
        (cs.drop (cs.takeWhile isBarChar).length).head? = some ']'
    then some (cs.takeWhile isBarChar)
    else extractBracketAux cs

/-- The error message `getMdProgress` returns when no line yields a match. -/
def noProgressMsg : String := "no progress information found"

/-- One loop iteration of `getMdProgress`: a line is tried for the bracket
regex exactly when it contains `"check"` or `"resync"`. -/
def progressLineScan (l : List Char) : Option (List Char) :=
  if containsSub "check".toList l || containsSub "resync".toList l
  then extractBracketAux l else none

/-- `getMdProgress` (src/main.go:51): scan for the first line containing
`"check"` or `"resync"` on which the regex `\[([=>\.]+)\]` matches; on the
captured group count `=` and `>` characters as completed units, divide by the
group length and scale to a percentage.  When no line matches, the function
returns the error `"no progress information found"`. -/
def getMdProgress (lines : List (List Char)) : Except String ℚ :=
  match lines.findSome? progressLineScan with
  | some g =>
      .ok (((g.count '=' + g.count '>' : ℕ) : ℚ) / ((g.length : ℕ) : ℚ) * 100)
  | none => .error noProgressMsg

/-- Character class `[^\\s]` of the raw-string pattern `finish=([^\\s]+)`:
any character other than a backslash or the letter `s`. -/
def finishClassChar (c : Char) : Bool :=
  !(c == '\\') && !(c == 's')

/-- Leftmost match of `finish=([^\\s]+)`, returning the captured group: the
maximal non-empty run of class characters right after an occurrence of the
literal `finish=`. -/
def extractFinishAux : List Char → Option (List Char)
  | [] => none
  | c :: cs =>
    if "finish=".toList.isPrefixOf (c :: cs) ∧
        ((c :: cs).drop 7).takeWhile finishClassChar ≠ []
    then some (((c :: cs).drop 7).takeWhile finishClassChar)
    else extractFinishAux cs

/-- One loop iteration of `getMdTimeLeft`: a line is tried for the pattern
exactly when it contains `"finish"`. -/
def finishLineScan (l : List Char) : Option (List Char) :=
  if containsSub "finish".toList l then extractFinishAux l else none

/-- `getMdTimeLeft` (src/main.go:97): scan for the first line containing
`"finish"` on which the pattern matches and return the captured token; when
no line matches, the Go function returns the empty string (and no error). -/
def getMdTimeLeft (lines : List (List Char)) : List Char :=
  (lines.findSome? finishLineScan).getD []

/-- Go's `int(x)` conversion from `float64`: truncation toward zero. -/
def goTrunc (q : ℚ) : Int :=
  if q < 0 then -(⌊-q⌋) else ⌊q⌋

/-- `strings.Repeat` on a one-character string: panics (here: `none`) when the
count is negative, otherwise the character repeated `n` times. -/
def goRepeat (c : Char) (n : Int) : Option (List Char) :=
  if n < 0 then none else some (List.replicate n.toNat c)

/-- The bar built by `drawProgressBar` (src/main.go:82) between the brackets:
`completed := int(float64(width) * percent / 100)` fill characters `=`, one
`>` when `remaining := width - completed` is positive (consuming one slot),
then `.` for each slot still remaining.  `none` models a `strings.Repeat`
panic on a negative count. -/
def drawProgressBarCore (percent : ℚ) (width : Int) : Option (List Char) :=
  (goRepeat '=' (goTrunc ((width : ℚ) * percent / 100))).bind (fun eqs =>
    (goRepeat '.'
        (if 0 < width - goTrunc ((width : ℚ) * percent / 100)
         then width - goTrunc ((width : ℚ) * percent / 100) - 1
         else width - goTrunc ((width : ℚ) * percent / 100))).bind (fun dots =>
      some ((if 0 < width - goTrunc ((width : ℚ) * percent / 100)
             then eqs ++ ['>'] else eqs) ++ dots)))

/-- Rendering of `%.1f`, abstracted over exact rationals: the value scaled by
ten and rounded to the nearest integer (half up), printed with one decimal. -/
def fmtOneDec (q : ℚ) : List Char :=
  let s : Int := ⌊q * 10 + 1 / 2⌋
  (toString (s / 10)).toList ++ '.' :: (toString (s % 10)).toList

/-- `drawProgressBar` (src/main.go:82): the bar enclosed in brackets and
suffixed with the percentage to one decimal place,
`fmt.Sprintf("[%s] %.1f%%", bar, percent)`. -/
def drawProgressBar (percent : ℚ) (width : Int) : Option (List Char) :=
  (drawProgressBarCore percent width).map
    (fun bar => '[' :: bar ++ ']' :: ' ' :: fmtOneDec percent ++ ['%'])

/-! ### The poll-until-reboot loop (src/main.go:374, `waitForRaidAndReboot`)

The loop's interaction with the kernel is a sequence of `getMdChecking`
results; it is modelled as a finite trace of read outcomes consumed in
order.  Sleeps, log lines and the reboot command are recorded as events. -/

/-- Outcome of one `getMdChecking` call as seen by the loop. -/
inductive ReadResult
  | err
  | ok (n : Nat)
deriving DecidableEq

/-- Observable actions of the loop. -/
inductive LoopEvent
  | logRead
  | sleepSec (n : Nat)
  | display
  | rebootCmd
  | fatal
deriving DecidableEq

/-- How a run of `waitForRaidAndReboot` ends. -/
inductive RunOutcome
  | rebooted
  | aborted
  | finishedNoReboot
  | outOfTrace
deriving DecidableEq

/-- `time.Sleep(100 * time.Second)` between polls with an active check. -/
def pollIntervalSec : Nat := 100

/-- `time.Sleep(10 * time.Second)` after a failed status read. -/
def readErrorBackoffSec : Nat := 10

/-- The final confirmatory check after the loop breaks (src/main.go:409):
a failed read is fatal (`log.Fatalf`); a read of `0` runs `reboot`; a
non-zero read falls off the end of the function without rebooting. -/
def finalPhase : List ReadResult → RunOutcome × List LoopEvent
  | [] => (.outOfTrace, [])
  | .err :: _ => (.aborted, [.fatal])
  | .ok 0 :: _ => (.rebooted, [.rebootCmd])
  | .ok (_ + 1) :: _ => (.finishedNoReboot, [])

/-- `waitForRaidAndReboot` (src/main.go:374) over a trace of read outcomes:
a failed read logs and sleeps the short backoff, then retries; a read of `0`
breaks out of the loop into the final confirmatory check; a positive read
sleeps the long poll interval and re-renders the status display. -/
def waitForRaidAndReboot : List ReadResult → RunOutcome × List LoopEvent
  | [] => (.outOfTrace, [])
  | .err :: rest =>
      ((waitForRaidAndReboot rest).1,
        .logRead :: .sleepSec readErrorBackoffSec :: (waitForRaidAndReboot rest).2)
  | .ok 0 :: rest => finalPhase rest
  | .ok (_ + 1) :: rest =>
      ((waitForRaidAndReboot rest).1,
        .sleepSec pollIntervalSec :: .display :: (waitForRaidAndReboot rest).2)

/-- Spec-side characterisation of a line the progress scan can use: it
contains `"check"` or `"resync"` and carries a non-empty bracket made only of
`=`/`>`/`.` characters. -/
def specProgressLine (l : List Char) : Prop :=
  ("check".toList <:+: l ∨ "resync".toList <:+: l) ∧
    ∃ a g b, l = a ++ '[' :: (g ++ ']' :: b) ∧ g ≠ [] ∧ ∀ c ∈ g, isBarChar c = true

/-- Spec-side input characterisation for C4: every `[` in the line is
immediately followed by `]`, so the only brackets present are the degenerate
`[]`. -/
def onlyEmptyBrackets : List Char → Bool
  | [] => true
  | c :: cs => (c != '[' || cs.head? == some ']') && onlyEmptyBrackets cs

/-! ### Helper lemmas -/

theorem containsSub_iff (pat l : List Char) : containsSub pat l = true ↔ pat <:+: l := by
  induction l with
  | nil => simp [containsSub]
  | cons c cs ih =>
    simp [containsSub, List.infix_cons_iff, ih]

theorem containsSub_eq_decide (pat l : List Char) :
    containsSub pat l = decide (pat <:+: l) := by
  cases hb : containsSub pat l
  · have h : ¬ pat <:+: l := fun hp => by
      have := (containsSub_iff pat l).2 hp
      rw [hb] at this
      exact Bool.false_ne_true this
    simp [h]
  · simp [(containsSub_iff pat l).1 hb]

/-- Soundness of the bracket regex: a match decomposes the line around a
non-empty bracket made only of bar characters. -/
theorem extractBracketAux_sound {l g : List Char} (h : extractBracketAux l = some g) :
    ∃ a b, l = a ++ '[' :: (g ++ ']' :: b) ∧ g ≠ [] ∧ ∀ c ∈ g, isBarChar c = true := by
  induction l with
  | nil => simp [extractBracketAux] at h
  | cons c cs ih =>
    rw [extractBracketAux] at h
    split at h
    · rename_i hcond
      obtain ⟨hc, hrun, hnext⟩ := hcond
      have hEq : cs.takeWhile isBarChar = g := by injection h
      rw [hEq] at hnext hrun
      obtain ⟨t, ht⟩ := List.takeWhile_prefix (l := cs) (p := isBarChar)
      rw [hEq] at ht
      have hdrop : cs.drop g.length = t := by
        rw [← ht]
        exact List.drop_left _ _
      rw [hdrop] at hnext
      rcases t with _ | ⟨x, t'⟩
      · simp at hnext
      · have hx : x = ']' := by
          simpa using hnext
        subst hx
        refine ⟨[], t', ?_, hrun, ?_⟩
        · rw [List.nil_append, hc, ← ht]
        · intro x hx
          apply List.mem_takeWhile_imp (p := isBarChar) (l := cs)
          rw [hEq]
          exact hx
    · obtain ⟨a, b, rfl, hg, hbar⟩ := ih h
      exact ⟨c :: a, b, rfl, hg, hbar⟩

/-- Completeness of the bracket regex: a line whose first `[` opens a
non-empty bar-character bracket closed by `]` yields exactly that bracket. -/
theorem extractBracketAux_complete {a g b : List Char} (ha : '[' ∉ a) (hg : g ≠ [])
    (hbar : ∀ c ∈ g, isBarChar c = true) :
    extractBracketAux (a ++ '[' :: (g ++ ']' :: b)) = some g := by
  induction a with
  | nil =>
    have hrun : (g ++ ']' :: b).takeWhile isBarChar = g := by
      rw [List.takeWhile_append_of_pos hbar, List.takeWhile_cons]
      simp [isBarChar]
    rw [List.nil_append, extractBracketAux, if_pos]
    · rw [hrun]
    · refine ⟨rfl, ?_, ?_⟩
      · rw [hrun]; exact hg
      · rw [hrun, List.drop_left]
        rfl
  | cons x a' ih =>
    have hx : ¬ x = '[' := fun hxe => ha (hxe ▸ List.mem_cons_self x a')
    rw [List.cons_append, extractBracketAux, if_neg (fun hcond => hx hcond.1)]
    exact ih (fun hm => ha (List.mem_cons_of_mem x hm))

theorem progressLineScan_eq_none {l : List Char} (h : ¬ specProgressLine l) :
    progressLineScan l = none := by
  rw [progressLineScan]
  rcases hb : (containsSub "check".toList l || containsSub "resync".toList l) with _ | _
  · rw [if_neg]
    simp [hb]
  · rw [if_pos (by simp [hb])]
    cases he : extractBracketAux l with
    | none => rfl
    | some g =>
      exfalso
      apply h
      refine ⟨?_, ?_⟩
      · rcases Bool.or_eq_true_iff.1 hb with h1 | h1
        · exact Or.inl ((containsSub_iff _ _).1 h1)
        · exact Or.inr ((containsSub_iff _ _).1 h1)
      · obtain ⟨a, b, hl, hg, hbar⟩ := extractBracketAux_sound he
        exact ⟨a, g, b, hl, hg, hbar⟩

theorem progressLineScan_eq_some {a g b : List Char} (hg : g ≠ [])
    (hbar : ∀ c ∈ g, isBarChar c = true) (ha : '[' ∉ a)
    (hcr : "check".toList <:+: (a ++ '[' :: (g ++ ']' :: b)) ∨
      "resync".toList <:+: (a ++ '[' :: (g ++ ']' :: b))) :
    progressLineScan (a ++ '[' :: (g ++ ']' :: b)) = some g := by
  have hcs : (containsSub "check".toList (a ++ '[' :: (g ++ ']' :: b)) ||
      containsSub "resync".toList (a ++ '[' :: (g ++ ']' :: b))) = true := by
    rcases hcr with h1 | h1
    · rw [(containsSub_iff _ _).2 h1, Bool.true_or]
    · rw [(containsSub_iff _ _).2 h1, Bool.or_true]
  rw [progressLineScan, if_pos hcs, extractBracketAux_complete ha hg hbar]

theorem findSome?_append_left_none {α β : Type} {f : α → Option β} {l₁ l₂ : List α}
    (h : ∀ x ∈ l₁, f x = none) : (l₁ ++ l₂).findSome? f = l₂.findSome? f := by
  rw [List.findSome?_append, List.findSome?_eq_none_iff.2 h, Option.none_or]

theorem getMdProgress_eq_ok {lines : List (List Char)} {g : List Char}
    (h : lines.findSome? progressLineScan = some g) :
    getMdProgress lines =
      .ok (((g.count '=' + g.count '>' : ℕ) : ℚ) / ((g.length : ℕ) : ℚ) * 100) := by
  rw [getMdProgress, h]

theorem getMdProgress_eq_error {lines : List (List Char)}
    (h : lines.findSome? progressLineScan = none) :
    getMdProgress lines = .error noProgressMsg := by
  rw [getMdProgress, h]

/-- Structure of the rendered bar for percentages in range and positive
width: floor-many fill characters, a transition character exactly when fill
does not exhaust the width, filler dots for the rest; together with the
bounds on the computed fill count. -/
theorem drawProgressBarCore_spec (percent : ℚ) (width : Int)
    (h0 : 0 ≤ percent) (h1 : percent ≤ 100) (hw : 0 < width) :
    0 ≤ ⌊(width : ℚ) * percent / 100⌋ ∧ ⌊(width : ℚ) * percent / 100⌋ ≤ width ∧
    goTrunc ((width : ℚ) * percent / 100) = ⌊(width : ℚ) * percent / 100⌋ ∧
    drawProgressBarCore percent width =
      some (List.replicate (⌊(width : ℚ) * percent / 100⌋).toNat '=' ++
        (if ⌊(width : ℚ) * percent / 100⌋ < width
         then '>' :: List.replicate (width - ⌊(width : ℚ) * percent / 100⌋ - 1).toNat '.'
         else [])) := by
  have hwq : (0 : ℚ) ≤ (width : ℚ) := by exact_mod_cast hw.le
  have hq0 : 0 ≤ (width : ℚ) * percent / 100 := by
    apply div_nonneg (mul_nonneg hwq h0)
    norm_num
  have hfl0 : 0 ≤ ⌊(width : ℚ) * percent / 100⌋ := Int.floor_nonneg.2 hq0
  have hqw : (width : ℚ) * percent / 100 ≤ (width : ℚ) := by
    rw [div_le_iff₀ (by norm_num : (0 : ℚ) < 100)]
    exact mul_le_mul_of_nonneg_left h1 hwq
  have hflw : ⌊(width : ℚ) * percent / 100⌋ ≤ width := by
    have h := Int.floor_le_floor hqw
    rwa [Int.floor_intCast] at h
  have hgt : goTrunc ((width : ℚ) * percent / 100) = ⌊(width : ℚ) * percent / 100⌋ := by
    rw [goTrunc, if_neg (not_lt.2 hq0)]
  refine ⟨hfl0, hflw, hgt, ?_⟩
  have h2 : ¬ (⌊(width : ℚ) * percent / 100⌋ < 0) := not_lt.2 hfl0
  have e1 : goRepeat '=' (goTrunc ((width : ℚ) * percent / 100)) =
      some (List.replicate (⌊(width : ℚ) * percent / 100⌋).toNat '=') := by
    rw [hgt, goRepeat, if_neg h2]
  by_cases hrem : 0 < width - ⌊(width : ℚ) * percent / 100⌋
  · have h3 : ¬ (width - ⌊(width : ℚ) * percent / 100⌋ - 1 < 0) := by omega
    have h4 : ⌊(width : ℚ) * percent / 100⌋ < width := by omega
    have e2 : goRepeat '.'
        (if 0 < width - goTrunc ((width : ℚ) * percent / 100)
         then width - goTrunc ((width : ℚ) * percent / 100) - 1
         else width - goTrunc ((width : ℚ) * percent / 100)) =
        some (List.replicate (width - ⌊(width : ℚ) * percent / 100⌋ - 1).toNat '.') := by
      rw [hgt, if_pos hrem, goRepeat, if_neg h3]
    rw [drawProgressBarCore, e1, Option.some_bind, e2, Option.some_bind, hgt,
      if_pos hrem, if_pos h4, List.append_assoc, List.singleton_append]
  · have h4 : ¬ (⌊(width : ℚ) * percent / 100⌋ < width) := by omega
    have h5 : (width - ⌊(width : ℚ) * percent / 100⌋).toNat = 0 := by omega
    have h6 : ¬ (width - ⌊(width : ℚ) * percent / 100⌋ < 0) := by omega
    have e2 : goRepeat '.'
        (if 0 < width - goTrunc ((width : ℚ) * percent / 100)
         then width - goTrunc ((width : ℚ) * percent / 100) - 1
         else width - goTrunc ((width : ℚ) * percent / 100)) =
        some [] := by
      rw [hgt, if_neg hrem, goRepeat, if_neg h6, h5, List.replicate_zero]
    rw [drawProgressBarCore, e1, Option.some_bind, e2, Option.some_bind, hgt,
      if_neg hrem, if_neg h4, List.append_nil]

theorem count_fill_le_length (g : List Char) : g.count '=' + g.count '>' ≤ g.length := by
  induction g with
  | nil => simp
  | cons c t ih =>
    by_cases h1 : c = '='
    · simp [List.count_cons, h1]
      omega
    · by_cases h2 : c = '>'
      · simp [List.count_cons, h1, h2]
        omega
      · simp [List.count_cons, h1, h2]
        omega

theorem extractBracketAux_eq_none_of_onlyEmpty {l : List Char}
    (h : onlyEmptyBrackets l = true) : extractBracketAux l = none := by
  induction l with
  | nil => rfl
  | cons c cs ih =>
    rw [onlyEmptyBrackets, Bool.and_eq_true] at h
    obtain ⟨h1, h2⟩ := h
    rw [extractBracketAux, if_neg]
    · exact ih h2
    · rintro ⟨hc, hrun, -⟩
      subst hc
      simp only [bne_self_eq_false, Bool.false_or, beq_iff_eq] at h1
      rcases cs with _ | ⟨d, rest⟩
      · simp at h1
      · have hd : d = ']' := by simpa using h1
        subst hd
        rw [List.takeWhile_cons] at hrun
        simp [isBarChar] at hrun

/-! ### Claims -/

/-- C5: `getMdChecking` returns exactly the number of lines containing the
literal substring `"check"`; incidental substring matches count, so a line
containing `"checking"` is counted. -/
theorem c5_check_count_substring :
    (∀ lines : List (List Char),
      getMdChecking lines = lines.countP (fun l => decide ("check".toList <:+: l))) ∧
    (∀ l : List Char, "checking".toList <:+: l → getMdChecking [l] = 1) := by
  constructor
  · intro lines
    rw [getMdChecking]
    congr 1
    funext l
    exact containsSub_eq_decide _ _
  · intro l h
    have hc : "check".toList <:+: l := List.IsInfix.trans (by decide) h
    have hcc : containsSub "check".toList l = true := (containsSub_iff _ _).2 hc
    rw [getMdChecking]
    rw [List.countP_cons, List.countP_nil]
    simp only [hcc]
    rfl

/-- Witness for C5 at a concrete line containing `"checking"`. -/
theorem c5_witness : getMdChecking ["md0 : active checking".toList] = 1 :=
  c5_check_count_substring.2 "md0 : active checking".toList (by decide)

/-- C3 counterexample: on readable content with a check line but no progress
bracket, `getMdProgress` does fail, returning the no-progress error rather
than an absent value. -/
theorem c3_counterexample :
    getMdProgress [" check = 0.5% (1/200)".toList] = .error noProgressMsg := by
  have h : List.findSome? progressLineScan [" check = 0.5% (1/200)".toList] = none := by
    decide
  exact getMdProgress_eq_error h

/-- C3 (amended): on readable content `getMdProgress` either succeeds or
fails with exactly the error `"no progress information found"` (missing
pattern is reported as this error, which `progressCmd` treats as fatal, not
as an absent value); `getMdTimeLeft` never fails on readable content and
yields the empty token when no line contains `"finish"`. -/
theorem c3_reader_failure_modes :
    ∀ lines : List (List Char),
      ((∃ v, getMdProgress lines = .ok v) ∨
        getMdProgress lines = .error noProgressMsg) ∧
      ((∀ l ∈ lines, containsSub "finish".toList l = false) →
        getMdTimeLeft lines = []) := by
  intro lines
  constructor
  · cases h : lines.findSome? progressLineScan with
    | some g => exact Or.inl ⟨_, getMdProgress_eq_ok h⟩
    | none => exact Or.inr (getMdProgress_eq_error h)
  · intro h
    have hnone : lines.findSome? finishLineScan = none :=
      List.findSome?_eq_none_iff.2 (fun l hl => by
        rw [finishLineScan, h l hl]
        simp)
    rw [getMdTimeLeft, hnone]
    rfl

/-- Witness for C3 at concrete content. -/
theorem c3_witness :
    ((∃ v, getMdProgress ["md0 idle".toList] = .ok v) ∨
      getMdProgress ["md0 idle".toList] = .error noProgressMsg) ∧
    getMdTimeLeft ["md0 idle".toList] = [] :=
  ⟨(c3_reader_failure_modes ["md0 idle".toList]).1,
   (c3_reader_failure_modes ["md0 idle".toList]).2 (by decide)⟩

/-- C4 counterexample: on content whose check line carries only the
degenerate bracket `[]`, `getMdProgress` returns the no-progress error — an
error (fatal in `progressCmd`), not an absent value, contrary to the claim's
"yields an absent value". -/
theorem c4_counterexample :
    getMdProgress ["md0 [] check".toList] = .error noProgressMsg := by
  have h : List.findSome? progressLineScan ["md0 [] check".toList] = none := by
    decide
  exact getMdProgress_eq_error h

/-- C4 (amended): on content whose `"check"`/`"resync"` lines contain only
degenerate empty brackets `[]`, `getMdProgress` produces no progress value —
it returns the error `"no progress information found"` (the same error path
as a missing bracket, not an absent value), because the regex `+` cannot
match an empty group — and every division the function ever performs has a
denominator of at least 1, so a division by zero is impossible. -/
theorem c4_empty_bracket_safe :
    (∀ lines : List (List Char),
      (∀ l ∈ lines, ("check".toList <:+: l ∨ "resync".toList <:+: l) →
        onlyEmptyBrackets l = true) →
      getMdProgress lines = .error noProgressMsg) ∧
    (∀ (l g : List Char), extractBracketAux l = some g → 1 ≤ g.length) := by
  constructor
  · intro lines h
    apply getMdProgress_eq_error
    apply List.findSome?_eq_none_iff.2
    intro l hl
    rw [progressLineScan]
    cases hb : (containsSub "check".toList l || containsSub "resync".toList l) with
    | false => simp
    | true =>
      rw [if_pos rfl]
      apply extractBracketAux_eq_none_of_onlyEmpty
      apply h l hl
      rcases Bool.or_eq_true_iff.1 hb with h1 | h1
      · exact Or.inl ((containsSub_iff _ _).1 h1)
      · exact Or.inr ((containsSub_iff _ _).1 h1)
  · intro l g hg
    obtain ⟨-, -, -, hne, -⟩ := extractBracketAux_sound hg
    exact List.length_pos.2 hne

/-- Witness for C4 at concrete content with a degenerate bracket. -/
theorem c4_witness :
    getMdProgress ["md0 [] check".toList] = .error noProgressMsg ∧
    1 ≤ "=>".toList.length :=
  ⟨c4_empty_bracket_safe.1 ["md0 [] check".toList] (by decide),
   c4_empty_bracket_safe.2 "[=>]".toList "=>".toList (by decide)⟩

/-- C1: on content whose earlier lines are not progress lines, a line
containing `"check"` or `"resync"` whose first bracket (`'['` absent from the
prefix `a`) is a non-empty group of `=`/`>`/`.` characters makes
`getMdProgress` return exactly `k / L * 100` for that group; conversely every
successful result arises from such a bracket group, so a bracket containing
any other character (such as the device-state bracket `[UUU_]`) is never used
as the progress bracket. -/
theorem c1_progress_formula :
    (∀ (pre suf : List (List Char)) (a g b : List Char),
      (∀ l' ∈ pre, ¬ specProgressLine l') →
      ("check".toList <:+: (a ++ '[' :: (g ++ ']' :: b)) ∨
        "resync".toList <:+: (a ++ '[' :: (g ++ ']' :: b))) →
      '[' ∉ a → g ≠ [] → (∀ c ∈ g, isBarChar c = true) →
      getMdProgress (pre ++ (a ++ '[' :: (g ++ ']' :: b)) :: suf) =
        .ok (((g.count '=' + g.count '>' : ℕ) : ℚ) / ((g.length : ℕ) : ℚ) * 100)) ∧
    (∀ (lines : List (List Char)) (v : ℚ), getMdProgress lines = .ok v →
      ∃ l a g b, l ∈ lines ∧ l = a ++ '[' :: (g ++ ']' :: b) ∧
        ("check".toList <:+: l ∨ "resync".toList <:+: l) ∧ g ≠ [] ∧
        (∀ c ∈ g, isBarChar c = true) ∧
        v = ((g.count '=' + g.count '>' : ℕ) : ℚ) / ((g.length : ℕ) : ℚ) * 100) := by
  constructor
  · intro pre suf a g b hpre hcr ha hg hbar
    apply getMdProgress_eq_ok
    rw [findSome?_append_left_none (fun l' hl' => progressLineScan_eq_none (hpre l' hl'))]
    have hsome := progressLineScan_eq_some hg hbar ha hcr
    rw [List.findSome?_cons_of_isSome _ (by rw [hsome]; rfl), hsome]
  · intro lines v hv
    rcases h : lines.findSome? progressLineScan with _ | g
    · rw [getMdProgress_eq_error h] at hv
      exact Except.noConfusion hv
    · have heq := getMdProgress_eq_ok h
      rw [hv] at heq
      have hveq := Except.ok.inj heq
      obtain ⟨l, hl, hf⟩ := List.exists_of_findSome?_eq_some h
      rw [progressLineScan] at hf
      cases hb : (containsSub "check".toList l || containsSub "resync".toList l) with
      | false =>
        rw [hb] at hf
        simp at hf
      | true =>
        rw [hb, if_pos rfl] at hf
        obtain ⟨a, b, hdec, hne, hbar⟩ := extractBracketAux_sound hf
        refine ⟨l, a, g, b, hl, hdec, ?_, hne, hbar, hveq⟩
        rcases Bool.or_eq_true_iff.1 hb with h1 | h1
        · exact Or.inl ((containsSub_iff _ _).1 h1)
        · exact Or.inr ((containsSub_iff _ _).1 h1)

/-- Witness for C1 at a concrete check line with bracket `[==>..]`. -/
theorem c1_witness :
    getMdProgress [("  ".toList ++ '[' :: ("==>..".toList ++ ']' :: " check".toList))] =
      .ok ((("==>..".toList.count '=' + "==>..".toList.count '>' : ℕ) : ℚ) /
        (("==>..".toList.length : ℕ) : ℚ) * 100) :=
  c1_progress_formula.1 [] [] "  ".toList "==>..".toList " check".toList
    (by simp) (Or.inl (by decide)) (by decide) (by decide) (by decide)

/-- C2 (code-bug evidence): on the scenario line carrying
`finish=37.2min speed=78319K/sec`, `getMdTimeLeft` returns `"37.2min "` with
a trailing space — the raw-string character class `[^\\s]` excludes the
backslash and the letter `s`, not whitespace — instead of the token
`"37.2min"` the spec describes. -/
theorem c2_timeleft_eval :
    getMdTimeLeft
        [("      [========>............]  check = 42.0% (123456/654321)" ++
          " finish=37.2min speed=78319K/sec").toList] = "37.2min ".toList ∧
    getMdTimeLeft
        [("      [========>............]  check = 42.0% (123456/654321)" ++
          " finish=37.2min speed=78319K/sec").toList] ≠ "37.2min".toList := by
  constructor
  · decide
  · decide

/-- C6: for percentages in `[0,100]` and positive width the bar between the
brackets is exactly `width` characters: `⌊width * percent / 100⌋` fill
characters `=`, one transition character `>` when non-fill space remains,
then filler `.` up to `width`; at percent 100 the transition is omitted. -/
theorem c6_bar_exact :
    ∀ (percent : ℚ) (width : Int), 0 ≤ percent → percent ≤ 100 → 0 < width →
      drawProgressBarCore percent width =
        some (List.replicate (⌊(width : ℚ) * percent / 100⌋).toNat '=' ++
          (if ⌊(width : ℚ) * percent / 100⌋ < width
           then '>' :: List.replicate (width - ⌊(width : ℚ) * percent / 100⌋ - 1).toNat '.'
           else [])) ∧
      (∀ bar, drawProgressBarCore percent width = some bar →
        bar.length = width.toNat) ∧
      (percent = 100 →
        drawProgressBarCore percent width = some (List.replicate width.toNat '=')) := by
  intro percent width h0 h1 hw
  obtain ⟨hfl0, hflw, -, hbar⟩ := drawProgressBarCore_spec percent width h0 h1 hw
  refine ⟨hbar, ?_, ?_⟩
  · intro bar hbar2
    rw [hbar] at hbar2
    obtain rfl := Option.some.inj hbar2
    by_cases h4 : ⌊(width : ℚ) * percent / 100⌋ < width
    · rw [if_pos h4]
      simp only [List.length_append, List.length_replicate, List.length_cons]
      omega
    · rw [if_neg h4]
      simp only [List.length_append, List.length_replicate, List.length_nil]
      omega
  · intro h100
    subst h100
    have hq : (width : ℚ) * 100 / 100 = (width : ℚ) := by field_simp
    have hfe : ⌊(width : ℚ) * 100 / 100⌋ = width := by rw [hq, Int.floor_intCast]
    rw [hbar, hfe, if_neg (lt_irrefl width), List.append_nil]

/-- Witness for C6 at percent 50, width 10. -/
theorem c6_witness : drawProgressBarCore 50 10 = some "=====>....".toList := by
  have h := (c6_bar_exact 50 10 (by norm_num) (by norm_num) (by norm_num)).1
  have hf : ⌊((10 : Int) : ℚ) * 50 / 100⌋ = 5 := by norm_num
  rw [hf] at h
  rw [h]
  decide

/-- C7 counterexample: at width 4 and percent 0 the interior is `>...`,
containing three filler characters, not `4 - 2 = 2` as the claim states. -/
theorem c7_counterexample :
    drawProgressBarCore 0 4 = some ">...".toList ∧
    ">...".toList.count '.' ≠ 4 - 2 := by
  constructor
  · obtain ⟨-, -, -, hbar⟩ :=
      drawProgressBarCore_spec 0 4 le_rfl (by norm_num) (by norm_num)
    have hf : ⌊((4 : Int) : ℚ) * 0 / 100⌋ = 0 := by norm_num
    rw [hf] at hbar
    rw [hbar]
    decide
  · decide

/-- C7 (amended): at percent 0 and width W the interior is W−1 filler
characters preceded by one transition character; at percent 100 no filler
remains and no transition character is appended. -/
theorem c7_endpoint_bars :
    ∀ width : Int, 0 < width →
      drawProgressBarCore 0 width = some ('>' :: List.replicate (width - 1).toNat '.') ∧
      drawProgressBarCore 100 width = some (List.replicate width.toNat '=') := by
  intro width hw
  constructor
  · obtain ⟨-, -, -, hbar⟩ := drawProgressBarCore_spec 0 width le_rfl (by norm_num) hw
    have hf : ⌊(width : ℚ) * 0 / 100⌋ = 0 := by norm_num
    rw [hf] at hbar
    rw [hbar, if_pos hw]
    simp
  · obtain ⟨-, -, -, hbar⟩ := drawProgressBarCore_spec 100 width (by norm_num) le_rfl hw
    have hq : (width : ℚ) * 100 / 100 = (width : ℚ) := by field_simp
    have hf : ⌊(width : ℚ) * 100 / 100⌋ = width := by rw [hq, Int.floor_intCast]
    rw [hf] at hbar
    rw [hbar, if_neg (lt_irrefl width), List.append_nil]

/-- Witness for C7 at width 5. -/
theorem c7_witness :
    drawProgressBarCore 0 5 = some ('>' :: List.replicate ((5 : Int) - 1).toNat '.') ∧
    drawProgressBarCore 100 5 = some (List.replicate (5 : Int).toNat '=') :=
  c7_endpoint_bars 5 (by norm_num)

/-- C10: every value `getMdProgress` successfully returns lies in `[0,100]`
(the counted `=`/`>` characters never exceed the bracket length), and for
percent in `[0,100]` with positive width both `strings.Repeat` counts the
renderer computes are non-negative, so `drawProgressBar` is total. -/
theorem c10_safety :
    ∀ (lines : List (List Char)) (v percent : ℚ) (width : Int),
      (getMdProgress lines = .ok v → 0 ≤ v ∧ v ≤ 100) ∧
      (0 ≤ percent → percent ≤ 100 → 0 < width →
        0 ≤ goTrunc ((width : ℚ) * percent / 100) ∧
        0 ≤ (if 0 < width - goTrunc ((width : ℚ) * percent / 100)
             then width - goTrunc ((width : ℚ) * percent / 100) - 1
             else width - goTrunc ((width : ℚ) * percent / 100)) ∧
        (drawProgressBar percent width).isSome = true) := by
  intro lines v percent width
  constructor
  · intro hv
    rcases h : lines.findSome? progressLineScan with _ | g
    · rw [getMdProgress_eq_error h] at hv
      exact Except.noConfusion hv
    · have heq := getMdProgress_eq_ok h
      rw [hv] at heq
      have hveq := Except.ok.inj heq
      obtain ⟨l, -, hf⟩ := List.exists_of_findSome?_eq_some h
      rw [progressLineScan] at hf
      have hg : extractBracketAux l = some g := by
        cases hb : (containsSub "check".toList l || containsSub "resync".toList l) with
        | false =>
          rw [hb] at hf
          simp at hf
        | true =>
          rw [hb, if_pos rfl] at hf
          exact hf
      obtain ⟨-, -, -, hne, -⟩ := extractBracketAux_sound hg
      have hlen : 0 < g.length := List.length_pos.2 hne
      have hk : g.count '=' + g.count '>' ≤ g.length := count_fill_le_length g
      subst hveq
      constructor
      · apply mul_nonneg _ (by norm_num : (0 : ℚ) ≤ 100)
        exact div_nonneg (Nat.cast_nonneg _) (Nat.cast_nonneg _)
      · have hdiv : ((g.count '=' + g.count '>' : ℕ) : ℚ) / ((g.length : ℕ) : ℚ) ≤ 1 := by
          rw [div_le_one (by exact_mod_cast hlen)]
          exact_mod_cast hk
        calc ((g.count '=' + g.count '>' : ℕ) : ℚ) / ((g.length : ℕ) : ℚ) * 100
            ≤ 1 * 100 := mul_le_mul_of_nonneg_right hdiv (by norm_num)
          _ = 100 := one_mul 100
  · intro h0 h1 hw
    obtain ⟨hfl0, hflw, hgt, hbar⟩ := drawProgressBarCore_spec percent width h0 h1 hw
    rw [hgt]
    refine ⟨hfl0, ?_, ?_⟩
    · by_cases hrem : 0 < width - ⌊(width : ℚ) * percent / 100⌋
      · rw [if_pos hrem]
        omega
      · rw [if_neg hrem]
        omega
    · rw [drawProgressBar, hbar]
      rfl

/-- Witness for C10 at concrete content and concrete renderer inputs. -/
theorem c10_witness :
    (0 ≤ (60 : ℚ) ∧ (60 : ℚ) ≤ 100) ∧
    (0 ≤ goTrunc (((10 : Int) : ℚ) * 50 / 100) ∧
      0 ≤ (if 0 < (10 : Int) - goTrunc (((10 : Int) : ℚ) * 50 / 100)
           then (10 : Int) - goTrunc (((10 : Int) : ℚ) * 50 / 100) - 1
           else (10 : Int) - goTrunc (((10 : Int) : ℚ) * 50 / 100)) ∧
      (drawProgressBar 50 10).isSome = true) := by
  have h := c10_safety ["  [==>..] check".toList] 60 50 10
  refine ⟨h.1 ?_, h.2 (by norm_num) (by norm_num) (by norm_num)⟩
  have hfs : List.findSome? progressLineScan ["  [==>..] check".toList]
      = some "==>..".toList := by decide
  have h2 : ("==>..".toList.count '=' + "==>..".toList.count '>' : ℕ) = 3 := by decide
  have h3 : ("==>..".toList.length : ℕ) = 5 := by decide
  rw [getMdProgress, hfs]
  show Except.ok ((("==>..".toList.count '=' + "==>..".toList.count '>' : ℕ) : ℚ)
      / (("==>..".toList.length : ℕ) : ℚ) * 100) = Except.ok 60
  rw [h2, h3]
  norm_num

/-- C8: in the poll loop every failed status read is logged, followed by the
fixed 10-second backoff (strictly shorter than the 100-second poll interval),
and polling resumes; an all-failure trace of any length leaves the loop still
polling with no reboot and no abort. -/
theorem c8_read_failures_retried :
    ∀ rs : List ReadResult, (∀ r ∈ rs, r = .err) →
      (waitForRaidAndReboot rs).1 = .outOfTrace ∧
      (∀ e ∈ (waitForRaidAndReboot rs).2,
        e = .logRead ∨ e = .sleepSec readErrorBackoffSec) ∧
      LoopEvent.rebootCmd ∉ (waitForRaidAndReboot rs).2 ∧
      LoopEvent.fatal ∉ (waitForRaidAndReboot rs).2 ∧
      readErrorBackoffSec < pollIntervalSec := by
  intro rs h
  induction rs with
  | nil =>
    refine ⟨rfl, ?_, ?_, ?_, by decide⟩ <;> simp [waitForRaidAndReboot]
  | cons r rest ih =>
    have hr : r = .err := h r (List.mem_cons_self r rest)
    subst hr
    obtain ⟨h1, h2, h3, h4, h5⟩ := ih (fun x hx => h x (List.mem_cons_of_mem _ hx))
    refine ⟨h1, ?_, ?_, ?_, h5⟩
    · intro e he
      rw [waitForRaidAndReboot] at he
      rcases List.mem_cons.1 he with rfl | he2
      · exact Or.inl rfl
      · rcases List.mem_cons.1 he2 with rfl | he3
        · exact Or.inr rfl
        · exact h2 e he3
    · intro hmem
      rw [waitForRaidAndReboot] at hmem
      rcases List.mem_cons.1 hmem with heq | hmem2
      · exact LoopEvent.noConfusion heq
      · rcases List.mem_cons.1 hmem2 with heq | hmem3
        · exact LoopEvent.noConfusion heq
        · exact h3 hmem3
    · intro hmem
      rw [waitForRaidAndReboot] at hmem
      rcases List.mem_cons.1 hmem with heq | hmem2
      · exact LoopEvent.noConfusion heq
      · rcases List.mem_cons.1 hmem2 with heq | hmem3
        · exact LoopEvent.noConfusion heq
        · exact h4 hmem3

/-- Witness for C8 on a two-failure trace. -/
theorem c8_witness :
    (waitForRaidAndReboot [.err, .err]).1 = .outOfTrace ∧
    (∀ e ∈ (waitForRaidAndReboot [.err, .err]).2,
      e = .logRead ∨ e = .sleepSec readErrorBackoffSec) ∧
    LoopEvent.rebootCmd ∉ (waitForRaidAndReboot [.err, .err]).2 ∧
    LoopEvent.fatal ∉ (waitForRaidAndReboot [.err, .err]).2 ∧
    readErrorBackoffSec < pollIntervalSec :=
  c8_read_failures_retried [.err, .err] (by decide)

theorem run_rebooted_decomp :
    ∀ trace : List ReadResult, (waitForRaidAndReboot trace).1 = .rebooted →
      ∃ p s, trace = p ++ .ok 0 :: .ok 0 :: s := by
  intro trace
  induction trace with
  | nil => intro h; exact RunOutcome.noConfusion h
  | cons r rest ih =>
    intro h
    rcases r with _ | n
    · obtain ⟨p, s, hp⟩ := ih h
      exact ⟨.err :: p, s, by rw [List.cons_append, hp]⟩
    · cases n with
      | zero =>
        rcases rest with _ | ⟨r2, rest2⟩
        · exact RunOutcome.noConfusion h
        · rcases r2 with _ | n2
          · exact RunOutcome.noConfusion h
          · cases n2 with
            | zero => exact ⟨[], rest2, rfl⟩
            | succ m => exact RunOutcome.noConfusion h
      | succ n =>
        obtain ⟨p, s, hp⟩ := ih h
        exact ⟨.ok (n + 1) :: p, s, by rw [List.cons_append, hp]⟩

theorem run_reboot_event_only_if_rebooted :
    ∀ trace : List ReadResult,
      LoopEvent.rebootCmd ∈ (waitForRaidAndReboot trace).2 →
      (waitForRaidAndReboot trace).1 = .rebooted := by
  intro trace
  induction trace with
  | nil => intro h; simp [waitForRaidAndReboot] at h
  | cons r rest ih =>
    intro h
    rcases r with _ | n
    · rw [waitForRaidAndReboot] at h
      rcases List.mem_cons.1 h with heq | h2
      · exact LoopEvent.noConfusion heq
      · rcases List.mem_cons.1 h2 with heq | h3
        · exact LoopEvent.noConfusion heq
        · exact ih h3
    · cases n with
      | zero =>
        rcases rest with _ | ⟨r2, rest2⟩
        · simp [waitForRaidAndReboot, finalPhase] at h
        · rcases r2 with _ | n2
          · simp [waitForRaidAndReboot, finalPhase] at h
          · cases n2 with
            | zero => rfl
            | succ m => simp [waitForRaidAndReboot, finalPhase] at h
      | succ n =>
        rw [waitForRaidAndReboot] at h
        rcases List.mem_cons.1 h with heq | h2
        · exact LoopEvent.noConfusion heq
        · rcases List.mem_cons.1 h2 with heq | h3
          · exact LoopEvent.noConfusion heq
          · exact ih h3

theorem run_final_err_aborts :
    ∀ (pre suf : List ReadResult), ReadResult.ok 0 ∉ pre →
      (waitForRaidAndReboot (pre ++ .ok 0 :: .err :: suf)).1 = .aborted ∧
      LoopEvent.fatal ∈ (waitForRaidAndReboot (pre ++ .ok 0 :: .err :: suf)).2 ∧
      LoopEvent.rebootCmd ∉ (waitForRaidAndReboot (pre ++ .ok 0 :: .err :: suf)).2 := by
  intro pre
  induction pre with
  | nil =>
    intro suf h
    refine ⟨rfl, List.mem_cons_self _ _, ?_⟩
    intro hm
    rcases List.mem_cons.1 hm with heq | hm2
    · exact LoopEvent.noConfusion heq
    · exact List.not_mem_nil _ hm2
  | cons x pre' ih =>
    intro suf h
    have hx : x ≠ .ok 0 := fun he => h (he ▸ List.mem_cons_self x pre')
    have hrest := ih suf (fun hm => h (List.mem_cons_of_mem _ hm))
    obtain ⟨h1, h2, h3⟩ := hrest
    rcases x with _ | n
    · refine ⟨h1, ?_, ?_⟩
      · rw [List.cons_append, waitForRaidAndReboot]
        exact List.mem_cons_of_mem _ (List.mem_cons_of_mem _ h2)
      · intro hm
        rw [List.cons_append, waitForRaidAndReboot] at hm
        rcases List.mem_cons.1 hm with heq | hm2
        · exact LoopEvent.noConfusion heq
        · rcases List.mem_cons.1 hm2 with heq | hm3
          · exact LoopEvent.noConfusion heq
          · exact h3 hm3
    · cases n with
      | zero => exact absurd rfl hx
      | succ m =>
        refine ⟨h1, ?_, ?_⟩
        · rw [List.cons_append, waitForRaidAndReboot]
          exact List.mem_cons_of_mem _ (List.mem_cons_of_mem _ h2)
        · intro hm
          rw [List.cons_append, waitForRaidAndReboot] at hm
          rcases List.mem_cons.1 hm with heq | hm2
          · exact LoopEvent.noConfusion heq
          · rcases List.mem_cons.1 hm2 with heq | hm3
            · exact LoopEvent.noConfusion heq
            · exact h3 hm3

theorem run_final_ok_reboots :
    ∀ (pre suf : List ReadResult), ReadResult.ok 0 ∉ pre →
      (waitForRaidAndReboot (pre ++ .ok 0 :: .ok 0 :: suf)).1 = .rebooted ∧
      LoopEvent.rebootCmd ∈ (waitForRaidAndReboot (pre ++ .ok 0 :: .ok 0 :: suf)).2 := by
  intro pre
  induction pre with
  | nil => intro suf h; exact ⟨rfl, List.mem_cons_self _ _⟩
  | cons x pre' ih =>
    intro suf h
    have hx : x ≠ .ok 0 := fun he => h (he ▸ List.mem_cons_self x pre')
    obtain ⟨h1, h2⟩ := ih suf (fun hm => h (List.mem_cons_of_mem _ hm))
    rcases x with _ | n
    · refine ⟨h1, ?_⟩
      rw [List.cons_append, waitForRaidAndReboot]
      exact List.mem_cons_of_mem _ (List.mem_cons_of_mem _ h2)
    · cases n with
      | zero => exact absurd rfl hx
      | succ m =>
        refine ⟨h1, ?_⟩
        rw [List.cons_append, waitForRaidAndReboot]
        exact List.mem_cons_of_mem _ (List.mem_cons_of_mem _ h2)

/-- C9: the reboot command runs only in a trace whose first idle loop read is
confirmed by the immediately following final read (`0, 0` consecutively); a
rebooted outcome always decomposes that way, a reboot event entails the
rebooted outcome, and a failed confirmatory read aborts fatally with no
reboot and no resumed polling. -/
theorem c9_confirmatory_recheck :
    ∀ (trace pre suf : List ReadResult),
      ((waitForRaidAndReboot trace).1 = .rebooted →
        ∃ p s, trace = p ++ .ok 0 :: .ok 0 :: s) ∧
      (LoopEvent.rebootCmd ∈ (waitForRaidAndReboot trace).2 →
        (waitForRaidAndReboot trace).1 = .rebooted) ∧
      (ReadResult.ok 0 ∉ pre →
        (waitForRaidAndReboot (pre ++ .ok 0 :: .ok 0 :: suf)).1 = .rebooted ∧
        (waitForRaidAndReboot (pre ++ .ok 0 :: .err :: suf)).1 = .aborted ∧
        LoopEvent.fatal ∈ (waitForRaidAndReboot (pre ++ .ok 0 :: .err :: suf)).2 ∧
        LoopEvent.rebootCmd ∉ (waitForRaidAndReboot (pre ++ .ok 0 :: .err :: suf)).2) := by
  intro trace pre suf
  refine ⟨run_rebooted_decomp trace, run_reboot_event_only_if_rebooted trace, ?_⟩
  intro h
  obtain ⟨h1, h2, h3⟩ := run_final_err_aborts pre suf h
  exact ⟨(run_final_ok_reboots pre suf h).1, h1, h2, h3⟩

/-- Witness for C9 at a concrete trace with one busy read and an error
prefix. -/
theorem c9_witness :
    ((waitForRaidAndReboot [.ok 1, .ok 0, .ok 0]).1 = .rebooted →
      ∃ p s, [ReadResult.ok 1, .ok 0, .ok 0] = p ++ .ok 0 :: .ok 0 :: s) ∧
    (LoopEvent.rebootCmd ∈ (waitForRaidAndReboot [.ok 1, .ok 0, .ok 0]).2 →
      (waitForRaidAndReboot [.ok 1, .ok 0, .ok 0]).1 = .rebooted) ∧
    ((waitForRaidAndReboot ([.err] ++ .ok 0 :: .ok 0 :: [])).1 = .rebooted ∧
      (waitForRaidAndReboot ([.err] ++ .ok 0 :: .err :: [])).1 = .aborted ∧
      LoopEvent.fatal ∈ (waitForRaidAndReboot ([.err] ++ .ok 0 :: .err :: [])).2 ∧
      LoopEvent.rebootCmd ∉ (waitForRaidAndReboot ([.err] ++ .ok 0 :: .err :: [])).2) :=
  ⟨(c9_confirmatory_recheck [.ok 1, .ok 0, .ok 0] [.err] []).1,
   (c9_confirmatory_recheck [.ok 1, .ok 0, .ok 0] [.err] []).2.1,
   (c9_confirmatory_recheck [.ok 1, .ok 0, .ok 0] [.err] []).2.2 (by decide)⟩

end RaidHelper

